import Mathlib

/-!
Verification development for the Polymarket arbitrage detection engine
(`src/models.py`, `src/arbitrage_detector.py`).

Modelling conventions, stated once:
* Python `float` prices and thresholds are modelled as exact rationals `ℚ`
  (the claims are algebraic statements about the formulas, not about
  floating-point rounding).
* `datetime.now().timestamp()` is modelled as an explicit parameter
  `now : ℕ` threaded through the detector; two calls inside the same time
  bucket receive the same `now`.
* Python dictionaries are modelled as insertion-ordered association lists
  with insert-or-replace-in-place semantics, matching CPython dict
  iteration order.
* The external CLOB client (`get_token_ids_for_markets`, `get_spreads`,
  `get_midpoints`) is an out-of-scope collaborator; it is modelled as a
  record of response functions, with batch-response iteration taken in
  request order.
* `str.lower` and the regex class `\s` are modelled on their ASCII
  behaviour (`Char.toLower`, the ASCII whitespace characters), which is
  exact on the ASCII question/outcome strings the detector manipulates.
-/

namespace Arbiter

/-- ASCII whitespace, the characters matched by the regex class in
`re.sub` and split on by `str.split` / removed by `str.strip`. -/
def isPySpace (c : Char) : Bool :=
  c = ' ' || c = '\t' || c = '\n' || c = '\r' || c = '\x0b' || c = '\x0c'

/-- Python `str.strip()`: drop whitespace from both ends. -/
def pyStrip (l : List Char) : List Char :=
  ((l.dropWhile isPySpace).reverse.dropWhile isPySpace).reverse

/-- Python `str.split()` (no separator): split on whitespace runs,
discarding empty pieces.  `cur` is the current word, reversed. -/
def splitWsAux : List Char → List Char → List (List Char)
  | [], cur => if cur.isEmpty then [] else [cur.reverse]
  | c :: rest, cur =>
      if isPySpace c then
        if cur.isEmpty then splitWsAux rest [] else cur.reverse :: splitWsAux rest []
      else splitWsAux rest (c :: cur)

def splitWs (l : List Char) : List (List Char) := splitWsAux l []

/-- Python `str.lower()` (ASCII). -/
def lowerStr (s : String) : String := String.mk (s.data.map Char.toLower)

/-- Python slicing `s[:n]` by code points. -/
def takeChars (n : ℕ) (s : String) : String := String.mk (s.data.take n)

/-- The alternation of the time-qualifier regex in `_check_cross_market`:
`(on|by|before|after|during)`. -/
def timeKeywords : List (List Char) :=
  (["on", "by", "before", "after", "during"].map String.data)

/-- No newline strictly before the last character: `.*$` (without
DOTALL) can consume `l` only when each newline of `l` is its final
character. -/
def noInteriorNL (l : List Char) : Bool := ! l.dropLast.contains '\n'

/-- After a matched keyword, the regex still needs `\s+.*$`: at least one
whitespace character, then a run that the dot can cross (no interior
newline once the whitespace prefix is consumed). -/
def kwTailOk (t : List Char) : Bool :=
  match t with
  | [] => false
  | c :: _ => isPySpace c && noInteriorNL (t.dropWhile isPySpace)

/-- Does `(on|by|before|after|during)\s+.*$` match at the start of `r`
(which is the text right after the `\s+` run)? -/
def kwHeadOk (r : List Char) : Bool :=
  timeKeywords.any (fun kw => r.take kw.length == kw && kwTailOk (r.drop kw.length))

/-- Does the whole pattern `\s+(on|by|before|after|during)\s+.*$` match
at the current position?  The keyword must start at the first
non-whitespace character of the run, since keywords do not start with
whitespace. -/
def qualMatchHere (cs : List Char) : Bool :=
  match cs with
  | [] => false
  | c :: _ => isPySpace c && kwHeadOk (cs.dropWhile isPySpace)

/-- The substitution of the empty string for the pattern keeps the text
before the leftmost match
(the replacement deletes from the match start to the end of the string,
up to trailing whitespace that the final `.strip()` removes anyway). -/
def stripQualifier : List Char → List Char
  | [] => []
  | c :: rest => if qualMatchHere (c :: rest) then [] else c :: stripQualifier rest

/-- The regex substitution of `_check_cross_market` followed by the
final strip: deletes the leftmost `\s+(on|by|before|after|during)\s+.*$`
match and trims whitespace, giving the core-event string used by the
pair test. -/
def coreEvent (q : String) : String := String.mk (pyStrip (stripQualifier q.data))

/-! ## Data model (`models.py`) -/

/-- `OpportunityType` enum. -/
inductive OpportunityType
  | prob_sum
  | cross_market
  | spread
  | liquidity_arb
deriving DecidableEq, Repr

/-- `OpportunityType.value`, the string payload of each enum member. -/
def OpportunityType.value : OpportunityType → String
  | .prob_sum => "prob_sum"
  | .cross_market => "cross_market"
  | .spread => "spread"
  | .liquidity_arb => "liquidity_arb"

/-- `MarketStatus` enum. -/
inductive MarketStatus
  | active
  | closed
  | resolved
deriving DecidableEq, Repr

/-- `Outcome` dataclass: one outcome of a market, its price a
probability-like number. -/
structure Outcome where
  name : String
  price : ℚ
  volume : Option ℚ := none
deriving DecidableEq, Repr

/-- The constructor input for `Outcome.price`: the field is annotated
`float` but `__post_init__` also accepts a string, converting it with
`float(...)`.  `str x` stands for a string literal that `float` parses
to `x`. -/
inductive PriceInput
  | num (x : ℚ)
  | str (x : ℚ)
deriving DecidableEq, Repr

def PriceInput.value : PriceInput → ℚ
  | .num x => x
  | .str x => x

/-- `Outcome(name, price, volume)` followed by `__post_init__`: a string
price is converted with `float`; nothing else is validated. -/
def mkOutcome (name : String) (p : PriceInput) (vol : Option ℚ) : Outcome :=
  { name := name, price := p.value, volume := vol }

/-- `Market` dataclass. -/
structure Market where
  id : String
  condition_id : String
  question : String
  outcomes : List Outcome
  volume : ℚ := 0
  liquidity : ℚ := 0
  status : MarketStatus := .active
  end_date : Option ℕ := none
  created_at : Option ℕ := none
deriving DecidableEq, Repr

/-- `Market.prob_sum` property. -/
def Market.prob_sum (m : Market) : ℚ := (m.outcomes.map Outcome.price).sum

/-- The outcome-building loop of `Market.from_api_response` (lines
84-87): `price = float(outcome_prices[i]) if i < len(outcome_prices)
else 0.5`, applied to the already-decoded name and price lists. -/
def fromApiOutcomes (names : List String) (prices : List ℚ) : List Outcome :=
  names.enum.map (fun p => { name := p.2, price := prices.getD p.1 (1/2), volume := none })

/-- The `details` dictionary attached to an opportunity, one constructor
per emitting site, fields in the insertion order of the Python dict.
`cross` carries `action`, `buy_yes_at`, `buy_no_at`, `cost`, `payout`,
`profit`; `spreadD` carries `spread`, `mid_price`, `token_id`,
`action`. -/
inductive Details
  | probSum (prob_sum deviation : ℚ) (action : String) (condition_id : String)
  | cross (action buy_yes_at buy_no_at : String) (cost payout profit : ℚ)
  | spreadD (spread mid_price : ℚ) (token_id : String) (action : String)
deriving DecidableEq, Repr

/-- `ArbitrageOpportunity` dataclass; `detected_at` defaults to the scan
timestamp. -/
structure ArbitrageOpportunity where
  id : String
  type : OpportunityType
  markets : List Market
  profit_estimate : ℚ
  details : Details
  detected_at : ℕ
  notified : Bool := false
deriving DecidableEq, Repr

/-- The two threshold options of `config.py` consumed by the detector. -/
structure Config where
  PROB_SUM_THRESHOLD : ℚ
  SPREAD_THRESHOLD : ℚ
deriving DecidableEq, Repr

/-- The defaults: `PROB_SUM_THRESHOLD = 0.03`, `SPREAD_THRESHOLD =
0.02`. -/
def defaultConfig : Config := { PROB_SUM_THRESHOLD := 3/100, SPREAD_THRESHOLD := 2/100 }

/-! ## Python dict as an insertion-ordered association list -/

/-- Is key `k` present? -/
def hasKey {β : Type} (d : List (String × β)) (k : String) : Bool :=
  d.any (fun p => p.1 = k)

/-- `d[k] = v` on a CPython dict: replace in place when the key is
present, otherwise append at the end. -/
def dinsert {β : Type} (d : List (String × β)) (k : String) (v : β) : List (String × β) :=
  if hasKey d k then d.map (fun p => if p.1 = k then (k, v) else p)
  else d ++ [(k, v)]

/-- `d.get(k)`. -/
def dget {β : Type} (d : List (String × β)) (k : String) : Option β :=
  (d.find? (fun p => p.1 = k)).map Prod.snd

/-- The value of the last pair with key `k` in a pair list (the value a
dict built from the list would hold). -/
def lastVal {β : Type} : List (String × β) → String → Option β
  | [], _ => none
  | p :: rest, k =>
      match lastVal rest k with
      | some w => some w
      | none => if p.1 = k then some p.2 else none

/-- Fold a list of key-value pairs into a dict. -/
def insPairs {β : Type} (d : List (String × β)) (ps : List (String × β)) : List (String × β) :=
  ps.foldl (fun d p => dinsert d p.1 p.2) d

/-- The flagged-markets map `self._flagged_markets : Dict[str, Market]`. -/
def FlaggedMap : Type := List (String × Market)

instance : DecidableEq FlaggedMap := by unfold FlaggedMap; infer_instance

/-! ## Probability-sum rule (`_detect_prob_sum_anomalies`) -/

/-- The emission condition: at least two outcomes and
`abs(prob_sum - 1.0) > config.PROB_SUM_THRESHOLD`. -/
def probQual (cfg : Config) (m : Market) : Bool :=
  decide (2 ≤ m.outcomes.length) && decide (cfg.PROB_SUM_THRESHOLD < |m.prob_sum - 1|)

/-- The ProbSum opportunity built for one triggering market. -/
def probOpp (now : ℕ) (m : Market) : ArbitrageOpportunity :=
  let ps := m.prob_sum
  { id := "prob_" ++ m.condition_id ++ "_" ++ toString now
    type := .prob_sum
    markets := [m]
    profit_estimate := if 1 < ps then (ps - 1) / ps else 1 - ps
    details := .probSum ps |ps - 1| (if 1 < ps then "卖出高概率结果" else "买入低概率结果") m.condition_id
    detected_at := now }

/-- The loop body of `_detect_prob_sum_anomalies`: append an
opportunity and flag the market (keyed by `market.id`) when the
condition holds. -/
def probStep (cfg : Config) (now : ℕ) (acc : List ArbitrageOpportunity × FlaggedMap)
    (m : Market) : List ArbitrageOpportunity × FlaggedMap :=
  if probQual cfg m then (acc.1 ++ [probOpp now m], dinsert acc.2 m.id m) else acc

/-- `_detect_prob_sum_anomalies`: one pass over the market list. -/
def detectProbSum (cfg : Config) (now : ℕ) (flagged : FlaggedMap) (markets : List Market) :
    List ArbitrageOpportunity × FlaggedMap :=
  markets.foldl (probStep cfg now) ([], flagged)

/-! ## Cross-market rule (`_group_similar_markets`, `_check_cross_market`,
`_detect_cross_market_opportunities`) -/

/-- The grouping stop-word set. -/
def stopWords : List String :=
  ["will", "the", "a", "an", "be", "is", "are", "to", "of", "in", "on"]

/-- The group key of one market: lowercase, split on whitespace, drop
stop words, join the first three remaining words with single spaces;
`none` when no word remains. -/
def groupKey (m : Market) : Option String :=
  let ws := ((splitWs (lowerStr m.question).data).map String.mk).filter
    (fun w => ! stopWords.contains w)
  if ws.isEmpty then none else some (String.intercalate " " (ws.take 3))

/-- `groups[key].append(market)` on a defaultdict of lists. -/
def groupAppend (d : List (String × List Market)) (k : String) (m : Market) :
    List (String × List Market) :=
  if hasKey d k then d.map (fun p => if p.1 = k then (p.1, p.2 ++ [m]) else p)
  else d ++ [(k, [m])]

/-- `_group_similar_markets`: build the groups in input order, then keep
only groups with at least two members. -/
def groupSimilar (markets : List Market) : List (String × List Market) :=
  (markets.foldl
      (fun d m => match groupKey m with | some k => groupAppend d k m | none => d) [])
    |>.filter (fun p => decide (2 ≤ p.2.length))

/-- Does some outcome of `m` have the (lowercased) name `nm`?  This is
the set-inclusion test `{"yes","no"} <= {o.name.lower() ...}`, one name
at a time. -/
def hasOutcomeName (m : Market) (nm : String) : Bool :=
  m.outcomes.any (fun o => lowerStr o.name = nm)

/-- `next(o.price for o in m.outcomes if o.name.lower() == nm)`: the
price of the first outcome with that lowercased name (0 is never
reached under the guard of the pair test). -/
def priceOf (m : Market) (nm : String) : ℚ :=
  match m.outcomes.find? (fun o => lowerStr o.name = nm) with
  | some o => o.price
  | none => 0

/-- The two complementary leg costs of the pair test:
`combo_1 = yes(m1) + no(m2)` and `combo_2 = no(m1) + yes(m2)`. -/
def combo1 (m1 m2 : Market) : ℚ := priceOf m1 "yes" + priceOf m2 "no"

def combo2 (m1 m2 : Market) : ℚ := priceOf m1 "no" + priceOf m2 "yes"

def profit1 (m1 m2 : Market) : ℚ := if combo1 m1 m2 < 1 then 1 - combo1 m1 m2 else 0

def profit2 (m1 m2 : Market) : ℚ := if combo2 m1 m2 < 1 then 1 - combo2 m1 m2 else 0

/-- `best_profit = max(profit_1, profit_2)`. -/
def bestProfit (m1 m2 : Market) : ℚ := max (profit1 m1 m2) (profit2 m1 m2)

/-- The emission part of `_check_cross_market`, reached after the three
guards have passed: threshold test, then the branch on
`profit_1 > profit_2`. -/
def crossPayload (cfg : Config) (now : ℕ) (m1 m2 : Market) :
    Option ArbitrageOpportunity :=
  if cfg.SPREAD_THRESHOLD < bestProfit m1 m2 then
    if profit2 m1 m2 < profit1 m1 m2 then
      some { id := "cross_" ++ m1.condition_id ++ "_" ++ m2.condition_id ++ "_" ++ toString now
             type := .cross_market
             markets := [m1, m2]
             profit_estimate := bestProfit m1 m2
             details := .cross
               ("买 " ++ takeChars 30 m1.question ++ "... 的 Yes + 买 " ++
                 takeChars 30 m2.question ++ "... 的 No")
               (takeChars 40 m1.question) (takeChars 40 m2.question) (combo1 m1 m2) 1
               (bestProfit m1 m2)
             detected_at := now }
    else
      some { id := "cross_" ++ m1.condition_id ++ "_" ++ m2.condition_id ++ "_" ++ toString now
             type := .cross_market
             markets := [m1, m2]
             profit_estimate := bestProfit m1 m2
             details := .cross
               ("买 " ++ takeChars 30 m1.question ++ "... 的 No + 买 " ++
                 takeChars 30 m2.question ++ "... 的 Yes")
               (takeChars 40 m2.question) (takeChars 40 m1.question) (combo2 m1 m2) 1
               (bestProfit m1 m2)
             detected_at := now }
  else none

/-- `_check_cross_market`: the pair test on two markets of one
similarity group. -/
def checkCrossMarket (cfg : Config) (now : ℕ) (m1 m2 : Market) :
    Option ArbitrageOpportunity :=
  if m1.condition_id = m2.condition_id then none
  else if coreEvent (lowerStr m1.question) ≠ coreEvent (lowerStr m2.question) then none
  else if ! (hasOutcomeName m1 "yes" && hasOutcomeName m1 "no" &&
             hasOutcomeName m2 "yes" && hasOutcomeName m2 "no") then none
  else crossPayload cfg now m1 m2

/-- The ordered pairs `(m1, m2)` produced by the nested loops
`for i, m1 in enumerate(group)` / `for m2 in group[i+1:]`. -/
def pairsList : List Market → List (Market × Market)
  | [] => []
  | m :: rest => rest.map (fun m2 => (m, m2)) ++ pairsList rest

/-- `_detect_cross_market_opportunities`: group, then test every pair in
group order, collecting emitted opportunities. -/
def detectCrossMarket (cfg : Config) (now : ℕ) (markets : List Market) :
    List ArbitrageOpportunity :=
  (groupSimilar markets).foldl
    (fun acc g =>
      if g.2.length < 2 then acc
      else acc ++ (pairsList g.2).filterMap (fun p => checkCrossMarket cfg now p.1 p.2)) []

/-! ## Spread rule (`_detect_spread_opportunities`) -/

/-- The out-of-scope CLOB client, as response functions:
`tokenIds i` is `token_map.get(i, [])` for market id `i`;
`spreads t` / `midpoints t` are the per-token entries of the batched
responses (`none` when the response lacks the token). -/
structure Client where
  tokenIds : String → List String
  spreads : String → Option ℚ
  midpoints : String → Option ℚ

/-- First-occurrence deduplication of the requested token ids: the keys
of a dict built from the batch response, iterated in request order. -/
def dedupFirst (seen : List String) : List String → List String
  | [] => []
  | t :: ts => if seen.contains t then dedupFirst seen ts
               else t :: dedupFirst (t :: seen) ts

/-- One Spread opportunity. -/
def spreadOpp (now : ℕ) (tok : String) (s mid : ℚ) (m : Market) : ArbitrageOpportunity :=
  { id := "spread_" ++ tok ++ "_" ++ toString now
    type := .spread
    markets := [m]
    profit_estimate := s
    details := .spreadD s mid tok "挂单套利"
    detected_at := now }

/-- The token-collecting loop of `_detect_spread_opportunities`:
extends `all_token_ids` and `market_token_map` with one market. -/
def tokenAcc (c : Client) (acc : List String × List (String × Market)) (m : Market) :
    List String × List (String × Market) :=
  (acc.1 ++ c.tokenIds m.id, (c.tokenIds m.id).foldl (fun d t => dinsert d t m) acc.2)

/-- The emission loop body of `_detect_spread_opportunities`. -/
def spreadStep (cfg : Config) (c : Client) (now : ℕ) (mtm : List (String × Market))
    (opps : List ArbitrageOpportunity) (ts : String × ℚ) : List ArbitrageOpportunity :=
  if cfg.SPREAD_THRESHOLD < ts.2 then
    match dget mtm ts.1 with
    | some m => opps ++ [spreadOpp now ts.1 ts.2 ((c.midpoints ts.1).getD (1/2)) m]
    | none => opps
  else opps

/-- The opportunity list computed by `_detect_spread_opportunities` from
the flagged-markets map. -/
def spreadOppsList (cfg : Config) (c : Client) (now : ℕ) (flagged : FlaggedMap) :
    List ArbitrageOpportunity :=
  let marketsToCheck := (flagged : List (String × Market)).map Prod.snd
  if marketsToCheck.isEmpty then []
  else
    let acc := marketsToCheck.foldl (tokenAcc c) ([], [])
    if acc.1.isEmpty then []
    else
      let items := (dedupFirst [] (acc.1.take 100)).filterMap
        (fun t => (c.spreads t).map (fun s => (t, s)))
      items.foldl (spreadStep cfg c now acc.2) []

/-- `_detect_spread_opportunities`: reads (and only reads) the
flagged-markets map, so the detector state it leaves behind is the map
it was given. -/
def detectSpread (cfg : Config) (c : Client) (now : ℕ) (flagged : FlaggedMap) :
    List ArbitrageOpportunity × FlaggedMap :=
  (spreadOppsList cfg c now flagged, flagged)

/-! ## Aggregator (`_deduplicate_opportunities`) and `full_scan` -/

/-- The dedup key `(opp.type.value, tuple(sorted(m.id for m in
opp.markets)))`. -/
def sortedInsert (s : String) : List String → List String
  | [] => [s]
  | t :: ts => if s ≤ t then s :: t :: ts else t :: sortedInsert s ts

def sortStrings (l : List String) : List String := l.foldr sortedInsert []

def oppKey (o : ArbitrageOpportunity) : String × List String :=
  (o.type.value, sortStrings (o.markets.map Market.id))

/-- The dedup loop, carrying the `seen` key set. -/
def dedupGo (seen : List (String × List String)) :
    List ArbitrageOpportunity → List ArbitrageOpportunity
  | [] => []
  | o :: os =>
      if oppKey o ∈ seen then dedupGo seen os
      else o :: dedupGo (oppKey o :: seen) os

/-- `_deduplicate_opportunities`. -/
def dedupOpps (l : List ArbitrageOpportunity) : List ArbitrageOpportunity :=
  dedupGo [] l

/-- `full_scan`: the three rules in order, concatenation, dedup; the
second component is the detector state (`_flagged_markets`) after the
scan. -/
def fullScan (cfg : Config) (c : Client) (now : ℕ) (flagged : FlaggedMap)
    (markets : List Market) : List ArbitrageOpportunity × FlaggedMap :=
  let pr := detectProbSum cfg now flagged markets
  let cr := detectCrossMarket cfg now markets
  let sp := detectSpread cfg c now pr.2
  (dedupOpps (pr.1 ++ cr ++ sp.1), sp.2)

/-! ## Concrete inputs used by witnesses and counterexamples -/

/-- A market whose outcome prices sum to 1.1: triggers the ProbSum rule
under the default threshold. -/
def mQ : Market :=
  { id := "mq", condition_id := "cq", question := "q alpha beta",
    outcomes := [{ name := "Yes", price := 6/10 }, { name := "No", price := 5/10 }] }

/-- Tie-break example, first leg: same core event as `exM2`, symmetric
prices, distinct condition ids. -/
def exM1 : Market :=
  { id := "m1", condition_id := "c1", question := "x wins on monday ok",
    outcomes := [{ name := "Yes", price := 2/5 }, { name := "No", price := 2/5 }] }

def exM2 : Market :=
  { id := "m2", condition_id := "c2", question := "x wins on tuesday ok",
    outcomes := [{ name := "Yes", price := 2/5 }, { name := "No", price := 2/5 }] }

/-- A three-outcome market that still contains Yes and No. -/
def exN1 : Market :=
  { id := "m3", condition_id := "c3", question := "y wins on monday x",
    outcomes := [{ name := "Yes", price := 3/10 }, { name := "No", price := 3/10 },
                 { name := "Maybe", price := 1/10 }] }

def exN2 : Market :=
  { id := "m4", condition_id := "c4", question := "y wins on tuesday x",
    outcomes := [{ name := "Yes", price := 3/10 }, { name := "No", price := 3/10 }] }

/-- A market with a single outcome named Yes (no No outcome). -/
def mW1 : Market :=
  { id := "m5", condition_id := "c5", question := "z wins",
    outcomes := [{ name := "Yes", price := 1/2 }] }

def mW2 : Market :=
  { id := "m6", condition_id := "c6", question := "z wins",
    outcomes := [{ name := "Yes", price := 1/5 }, { name := "No", price := 1/5 }] }

/-- Two listings sharing one condition id. -/
def mS1 : Market :=
  { id := "m7", condition_id := "sc", question := "w wins",
    outcomes := [{ name := "Yes", price := 1/5 }, { name := "No", price := 1/5 }] }

def mS2 : Market :=
  { id := "m8", condition_id := "sc", question := "w wins",
    outcomes := [{ name := "Yes", price := 1/5 }, { name := "No", price := 1/5 }] }

/-- Two markets with different core events. -/
def mC1 : Market :=
  { id := "m9", condition_id := "c9", question := "p wins",
    outcomes := [{ name := "Yes", price := 1/5 }, { name := "No", price := 1/5 }] }

def mC2 : Market :=
  { id := "m10", condition_id := "c10", question := "r wins",
    outcomes := [{ name := "Yes", price := 1/5 }, { name := "No", price := 1/5 }] }

/-- A client with empty responses. -/
def trivClient : Client :=
  { tokenIds := fun _ => [], spreads := fun _ => none, midpoints := fun _ => none }

/-- A client that answers one token for `mQ` with a wide spread and no
midpoint. -/
def exClient : Client :=
  { tokenIds := fun i => if i = "mq" then ["tok1"] else []
    spreads := fun t => if t = "tok1" then some (1/10) else none
    midpoints := fun _ => none }

/-- The opportunity emitted at the tie of `exM1`, `exM2`. -/
def oTie : ArbitrageOpportunity :=
  { id := "cross_c1_c2_0", type := .cross_market, markets := [exM1, exM2],
    profit_estimate := 1/5,
    details := .cross
      "买 x wins on monday ok... 的 No + 买 x wins on tuesday ok... 的 Yes"
      "x wins on tuesday ok" "x wins on monday ok" (combo2 exM1 exM2) 1 (1/5),
    detected_at := 0 }

/-- Two ProbSum opportunities on the identical market id (consecutive
time stamps). -/
def o1ex : ArbitrageOpportunity := probOpp 0 mQ

def o2ex : ArbitrageOpportunity := probOpp 1 mQ

/-! ## Characterization of the ProbSum rule -/

theorem detectProbSum_foldl (cfg : Config) (now : ℕ) (ms : List Market) :
    ∀ (a : List ArbitrageOpportunity) (g : FlaggedMap),
      ms.foldl (probStep cfg now) (a, g)
      = (a ++ (ms.filter (probQual cfg)).map (probOpp now),
         insPairs g ((ms.filter (probQual cfg)).map (fun m => (m.id, m)))) := by
  induction ms with
  | nil => intro a g; simp [insPairs]
  | cons m tl ih =>
      intro a g
      by_cases h : probQual cfg m
      · have hfc : List.filter (probQual cfg) (m :: tl) = m :: List.filter (probQual cfg) tl := by
          simp [List.filter_cons, h]
        simp only [List.foldl_cons, probStep, hfc]
        rw [if_pos h, ih]
        simp [insPairs]
      · have hfc : List.filter (probQual cfg) (m :: tl) = List.filter (probQual cfg) tl := by
          simp [List.filter_cons, h]
        simp only [List.foldl_cons, probStep, hfc]
        rw [if_neg h]
        exact ih a g

theorem detectProbSum_fst (cfg : Config) (now : ℕ) (f : FlaggedMap) (ms : List Market) :
    (detectProbSum cfg now f ms).1 = (ms.filter (probQual cfg)).map (probOpp now) := by
  unfold detectProbSum
  rw [detectProbSum_foldl]
  simp

theorem detectProbSum_snd (cfg : Config) (now : ℕ) (f : FlaggedMap) (ms : List Market) :
    (detectProbSum cfg now f ms).2
      = insPairs f ((ms.filter (probQual cfg)).map (fun m => (m.id, m))) := by
  unfold detectProbSum
  rw [detectProbSum_foldl]

/-! ## Dict lemmas -/

theorem hasKey_iff {β : Type} (d : List (String × β)) (k : String) :
    hasKey d k = true ↔ ∃ p ∈ d, p.1 = k := by
  simp [hasKey, List.any_eq_true]

theorem keys_dinsert_of_hasKey {β : Type} {d : List (String × β)} {k : String} (v : β)
    (h : hasKey d k = true) : (dinsert d k v).map Prod.fst = d.map Prod.fst := by
  unfold dinsert
  rw [if_pos h, List.map_map]
  apply List.map_congr_left
  intro p _
  by_cases hp : p.1 = k
  · simp [hp]
  · simp [hp]

theorem hasKey_dinsert_self {β : Type} (d : List (String × β)) (k : String) (v : β) :
    hasKey (dinsert d k v) k = true := by
  unfold dinsert
  by_cases h : hasKey d k
  · rw [if_pos h]
    rw [hasKey_iff] at h ⊢
    obtain ⟨p, hp, hpk⟩ := h
    refine ⟨(k, v), List.mem_map.2 ⟨p, hp, ?_⟩, rfl⟩
    simp [hpk]
  · rw [if_neg h, hasKey_iff]
    exact ⟨(k, v), by simp, rfl⟩

theorem hasKey_dinsert_mono {β : Type} {d : List (String × β)} {k' : String}
    (k : String) (v : β) (h : hasKey d k' = true) : hasKey (dinsert d k v) k' = true := by
  unfold dinsert
  by_cases hk : hasKey d k
  · rw [if_pos hk]
    rw [hasKey_iff] at h ⊢
    obtain ⟨p, hp, hpk⟩ := h
    by_cases hpk2 : p.1 = k
    · exact ⟨(k, v), List.mem_map.2 ⟨p, hp, by simp [hpk2]⟩, by rw [← hpk, hpk2]⟩
    · exact ⟨p, List.mem_map.2 ⟨p, hp, by simp [hpk2]⟩, hpk⟩
  · rw [if_neg hk]
    rw [hasKey_iff] at h ⊢
    obtain ⟨p, hp, hpk⟩ := h
    exact ⟨p, by simp [hp], hpk⟩

theorem hasKey_insPairs_mono {β : Type} (ps : List (String × β)) :
    ∀ (d : List (String × β)) (k : String), hasKey d k = true →
      hasKey (insPairs d ps) k = true := by
  induction ps with
  | nil => intro d k h; simpa [insPairs] using h
  | cons p tl ih =>
      intro d k h
      simp only [insPairs, List.foldl_cons]
      exact ih _ _ (hasKey_dinsert_mono _ _ h)

theorem hasKey_insPairs_of_mem {β : Type} (ps : List (String × β)) :
    ∀ (d : List (String × β)) (p : String × β), p ∈ ps →
      hasKey (insPairs d ps) p.1 = true := by
  induction ps with
  | nil => intro d p h; cases h
  | cons q tl ih =>
      intro d p hp
      simp only [insPairs, List.foldl_cons]
      rcases List.mem_cons.1 hp with h | h
      · subst h
        exact hasKey_insPairs_mono tl _ _ (hasKey_dinsert_self d p.1 p.2)
      · exact ih _ _ h

theorem lastVal_eq_none_iff {β : Type} (ps : List (String × β)) (k : String) :
    lastVal ps k = none ↔ ∀ p ∈ ps, p.1 ≠ k := by
  induction ps with
  | nil => simp [lastVal]
  | cons q tl ih =>
      simp only [lastVal]
      constructor
      · intro h p hp
        rcases List.mem_cons.1 hp with h' | h'
        · subst h'
          rcases hv : lastVal tl k with _ | w
          · rw [hv] at h
            intro hq
            rw [if_pos hq] at h
            cases h
          · rw [hv] at h; cases h
        · rcases hv : lastVal tl k with _ | w
          · exact (ih.1 hv) p h'
          · rw [hv] at h; cases h
      · intro h
        have htl : lastVal tl k = none := ih.2 (fun p hp => h p (List.mem_cons_of_mem _ hp))
        rw [htl, if_neg (h q (List.mem_cons_self _ _))]

theorem dinsert_entries_self {β : Type} (d : List (String × β)) (k : String) (v : β) :
    ∀ q ∈ dinsert d k v, q.1 = k → q = (k, v) := by
  intro q hq hqk
  unfold dinsert at hq
  by_cases h : hasKey d k
  · rw [if_pos h] at hq
    obtain ⟨p, _, hpq⟩ := List.mem_map.1 hq
    by_cases hpk : p.1 = k
    · rw [if_pos hpk] at hpq
      exact hpq.symm
    · rw [if_neg hpk] at hpq
      rw [← hpq] at hqk
      exact absurd hqk hpk
  · rw [if_neg h] at hq
    rcases List.mem_append.1 hq with h' | h'
    · exact absurd ((hasKey_iff d k).2 ⟨q, h', hqk⟩) h
    · simpa using h'

theorem dinsert_entries_other {β : Type} (d : List (String × β)) (k2 : String) (v2 : β)
    (k : String) (v : β) (hne : k2 ≠ k)
    (h : ∀ q ∈ d, q.1 = k → q = (k, v)) :
    ∀ q ∈ dinsert d k2 v2, q.1 = k → q = (k, v) := by
  intro q hq hqk
  unfold dinsert at hq
  by_cases h2 : hasKey d k2
  · rw [if_pos h2] at hq
    obtain ⟨p, hp, hpq⟩ := List.mem_map.1 hq
    by_cases hpk : p.1 = k2
    · rw [if_pos hpk] at hpq
      subst hpq
      exact absurd hqk hne
    · rw [if_neg hpk] at hpq
      subst hpq
      exact h p hp hqk
  · rw [if_neg h2] at hq
    rcases List.mem_append.1 hq with h' | h'
    · exact h q h' hqk
    · simp only [List.mem_singleton] at h'
      subst h'
      exact absurd hqk hne

theorem insPairs_entries_other {β : Type} (ps : List (String × β)) :
    ∀ (d : List (String × β)) (k : String) (v : β),
      (∀ p ∈ ps, p.1 ≠ k) → (∀ q ∈ d, q.1 = k → q = (k, v)) →
      ∀ q ∈ insPairs d ps, q.1 = k → q = (k, v) := by
  induction ps with
  | nil => intro d k v _ h; simpa [insPairs] using h
  | cons p tl ih =>
      intro d k v hps hd
      simp only [insPairs, List.foldl_cons]
      exact ih _ _ _ (fun r hr => hps r (List.mem_cons_of_mem _ hr))
        (dinsert_entries_other d p.1 p.2 k v (hps p (List.mem_cons_self _ _)) hd)

theorem insPairs_entries_lastVal {β : Type} (ps : List (String × β)) :
    ∀ (d : List (String × β)) (k : String) (v : β), lastVal ps k = some v →
      ∀ q ∈ insPairs d ps, q.1 = k → q = (k, v) := by
  induction ps with
  | nil => intro d k v h; cases h
  | cons p tl ih =>
      intro d k v h
      simp only [lastVal] at h
      rcases hv : lastVal tl k with _ | w
      · rw [hv] at h
        by_cases hpk : p.1 = k
        · rw [if_pos hpk] at h
          injection h with h
          subst h
          subst hpk
          simp only [insPairs, List.foldl_cons]
          exact insPairs_entries_other tl _ p.1 p.2 ((lastVal_eq_none_iff tl p.1).1 hv)
            (dinsert_entries_self d p.1 p.2)
        · rw [if_neg hpk] at h
          cases h
      · rw [hv] at h
        injection h with h
        subst h
        simp only [insPairs, List.foldl_cons]
        exact ih _ _ _ hv

theorem insPairs_allPresent {β : Type} (ps : List (String × β)) :
    ∀ (d : List (String × β)), (∀ p ∈ ps, hasKey d p.1 = true) →
      insPairs d ps
        = d.map (fun q => match lastVal ps q.1 with | some v => (q.1, v) | none => q) := by
  induction ps with
  | nil =>
      intro d _
      simp [insPairs, lastVal]
  | cons p tl ih =>
      intro d hpres
      have hk : hasKey d p.1 = true := hpres p (List.mem_cons_self _ _)
      have hrepl : dinsert d p.1 p.2 = d.map (fun q => if q.1 = p.1 then (p.1, p.2) else q) := by
        unfold dinsert
        rw [if_pos hk]
      have hpres' : ∀ r ∈ tl, hasKey (dinsert d p.1 p.2) r.1 = true :=
        fun r hr => hasKey_dinsert_mono _ _ (hpres r (List.mem_cons_of_mem _ hr))
      have hstep : insPairs d (p :: tl) = insPairs (dinsert d p.1 p.2) tl := by
        simp [insPairs]
      rw [hstep, ih (dinsert d p.1 p.2) hpres', hrepl, List.map_map]
      apply List.map_congr_left
      intro q _
      simp only [Function.comp]
      by_cases hq : q.1 = p.1
      · rw [if_pos hq]
        rcases hv : lastVal tl p.1 with _ | w
        · simp only [lastVal, hq, hv]
          simp [hq]
        · simp only [lastVal, hq, hv]
      · rw [if_neg hq]
        rcases hv : lastVal tl q.1 with _ | w
        · simp only [lastVal, hv]
          rw [if_neg (fun h => hq h.symm)]
        · simp only [lastVal, hv]

theorem insPairs_idem {β : Type} (d : List (String × β)) (ps : List (String × β)) :
    insPairs (insPairs d ps) ps = insPairs d ps := by
  have hpres : ∀ p ∈ ps, hasKey (insPairs d ps) p.1 = true :=
    fun p hp => hasKey_insPairs_of_mem ps d p hp
  rw [insPairs_allPresent ps (insPairs d ps) hpres]
  have hid : ∀ q ∈ insPairs d ps,
      (fun q => match lastVal ps q.1 with | some v => (q.1, v) | none => q) q = id q := by
    intro q hq
    rcases hv : lastVal ps q.1 with _ | w
    · simp [hv]
    · have hq' := insPairs_entries_lastVal ps d q.1 w hv q hq rfl
      simp only [hv, id]
      exact hq'.symm
  rw [List.map_congr_left hid, List.map_id]

/-! ## Dedup lemmas -/

theorem dedupGo_sublist (l : List ArbitrageOpportunity) :
    ∀ seen, List.Sublist (dedupGo seen l) l := by
  induction l with
  | nil => intro seen; exact List.Sublist.refl _
  | cons o os ih =>
      intro seen
      simp only [dedupGo]
      by_cases h : oppKey o ∈ seen
      · rw [if_pos h]
        exact (ih seen).trans (List.sublist_cons_self o os)
      · rw [if_neg h]
        exact (ih _).cons₂ o

theorem dedupGo_not_seen (l : List ArbitrageOpportunity) :
    ∀ seen o, o ∈ dedupGo seen l → oppKey o ∉ seen := by
  induction l with
  | nil => intro seen o h; cases h
  | cons p os ih =>
      intro seen o h
      simp only [dedupGo] at h
      by_cases hp : oppKey p ∈ seen
      · rw [if_pos hp] at h
        exact ih seen o h
      · rw [if_neg hp] at h
        rcases List.mem_cons.1 h with h' | h'
        · subst h'
          exact hp
        · intro hmem
          exact ih _ o h' (List.mem_cons_of_mem _ hmem)

theorem dedupGo_keys_nodup (l : List ArbitrageOpportunity) :
    ∀ seen, ((dedupGo seen l).map oppKey).Nodup := by
  induction l with
  | nil => intro seen; exact List.nodup_nil
  | cons p os ih =>
      intro seen
      simp only [dedupGo]
      by_cases hp : oppKey p ∈ seen
      · rw [if_pos hp]
        exact ih seen
      · rw [if_neg hp]
        simp only [List.map_cons, List.nodup_cons]
        refine ⟨?_, ih _⟩
        intro hmem
        obtain ⟨u, hu, hku⟩ := List.mem_map.1 hmem
        have := dedupGo_not_seen os _ u hu
        exact this (by rw [hku]; exact List.mem_cons_self _ _)

theorem dedupGo_complete (l : List ArbitrageOpportunity) :
    ∀ seen o, o ∈ l → oppKey o ∉ seen →
      ∃ u ∈ dedupGo seen l, oppKey u = oppKey o := by
  induction l with
  | nil => intro seen o h; cases h
  | cons p os ih =>
      intro seen o hmem hns
      simp only [dedupGo]
      by_cases hp : oppKey p ∈ seen
      · rw [if_pos hp]
        rcases List.mem_cons.1 hmem with h' | h'
        · subst h'
          exact absurd hp hns
        · exact ih seen o h' hns
      · rw [if_neg hp]
        by_cases hko : oppKey o = oppKey p
        · exact ⟨p, List.mem_cons_self _ _, hko.symm⟩
        · rcases List.mem_cons.1 hmem with h' | h'
          · subst h'
            exact absurd rfl hko
          · have hns' : oppKey o ∉ oppKey p :: seen := by
              intro hmem
              rcases List.mem_cons.1 hmem with h | h
              · exact hko h
              · exact hns h
            obtain ⟨u, hu, hku⟩ := ih _ o h' hns'
            exact ⟨u, List.mem_cons_of_mem _ hu, hku⟩

theorem dedupGo_first (l : List ArbitrageOpportunity) :
    ∀ seen o, o ∈ dedupGo seen l →
      l.find? (fun x => decide (oppKey x = oppKey o)) = some o := by
  induction l with
  | nil => intro seen o h; cases h
  | cons p os ih =>
      intro seen o h
      simp only [dedupGo] at h
      by_cases hp : oppKey p ∈ seen
      · rw [if_pos hp] at h
        have hno := dedupGo_not_seen os seen o h
        have hne : oppKey p ≠ oppKey o := fun he => hno (he ▸ hp)
        rw [List.find?_cons_of_neg _ (by simpa using hne), ih seen o h]
      · rw [if_neg hp] at h
        rcases List.mem_cons.1 h with h' | h'
        · subst h'
          rw [List.find?_cons_of_pos _ (by simp)]
        · have hno := dedupGo_not_seen os _ o h'
          have hne : oppKey p ≠ oppKey o := by
            intro he
            exact hno (by rw [← he]; exact List.mem_cons_self _ _)
          rw [List.find?_cons_of_neg _ (by simpa using hne), ih _ o h']

/-! ## Spread-rule lemmas -/

theorem dinsert_values {β : Type} (P : β → Prop) (d : List (String × β)) (k : String) (v : β)
    (hd : ∀ q ∈ d, P q.2) (hv : P v) : ∀ q ∈ dinsert d k v, P q.2 := by
  intro q hq
  unfold dinsert at hq
  by_cases h : hasKey d k
  · rw [if_pos h] at hq
    obtain ⟨p, hp, hpq⟩ := List.mem_map.1 hq
    by_cases hpk : p.1 = k
    · rw [if_pos hpk] at hpq
      rw [← hpq]
      exact hv
    · rw [if_neg hpk] at hpq
      rw [← hpq]
      exact hd p hp
  · rw [if_neg h] at hq
    rcases List.mem_append.1 hq with h' | h'
    · exact hd q h'
    · simp only [List.mem_singleton] at h'
      rw [h']
      exact hv

theorem tokensFold_values (P : Market → Prop) (m : Market) (hm : P m) :
    ∀ (ts : List String) (d : List (String × Market)), (∀ q ∈ d, P q.2) →
      ∀ q ∈ ts.foldl (fun d t => dinsert d t m) d, P q.2 := by
  intro ts
  induction ts with
  | nil => intro d hd; simpa using hd
  | cons t tl ih =>
      intro d hd
      simp only [List.foldl_cons]
      exact ih _ (dinsert_values P d t m hd hm)

theorem tokenAcc_values (c : Client) (P : Market → Prop) :
    ∀ (ms : List Market) (acc : List String × List (String × Market)),
      (∀ q ∈ acc.2, P q.2) → (∀ m ∈ ms, P m) →
      ∀ q ∈ (ms.foldl (tokenAcc c) acc).2, P q.2 := by
  intro ms
  induction ms with
  | nil => intro acc hacc _; simpa using hacc
  | cons m tl ih =>
      intro acc hacc hms
      simp only [List.foldl_cons]
      refine ih _ ?_ (fun r hr => hms r (List.mem_cons_of_mem _ hr))
      exact tokensFold_values P m (hms m (List.mem_cons_self _ _)) _ _ hacc

theorem dget_some_mem {β : Type} (d : List (String × β)) (k : String) (v : β)
    (h : dget d k = some v) : ∃ q ∈ d, q.2 = v := by
  unfold dget at h
  rcases hf : d.find? (fun p => decide (p.1 = k)) with _ | p
  · rw [hf] at h
    cases h
  · rw [hf] at h
    injection h with h
    exact ⟨p, List.mem_of_find?_eq_some hf, h⟩

theorem spreadStep_foldl_mem (cfg : Config) (c : Client) (now : ℕ)
    (mtm : List (String × Market)) (P : ArbitrageOpportunity → Prop)
    (hemit : ∀ t s m, dget mtm t = some m →
      P (spreadOpp now t s ((c.midpoints t).getD (1/2)) m)) :
    ∀ (items : List (String × ℚ)) (acc : List ArbitrageOpportunity),
      (∀ o ∈ acc, P o) → ∀ o ∈ items.foldl (spreadStep cfg c now mtm) acc, P o := by
  intro items
  induction items with
  | nil => intro acc hacc; simpa using hacc
  | cons ts tl ih =>
      intro acc hacc
      simp only [List.foldl_cons]
      refine ih _ ?_
      intro o ho
      unfold spreadStep at ho
      split at ho
      · split at ho
        next m heq =>
          rcases List.mem_append.1 ho with h' | h'
          · exact hacc o h'
          · simp only [List.mem_singleton] at h'
            rw [h']
            exact hemit ts.1 ts.2 m heq
        next => exact hacc o ho
      · exact hacc o ho

theorem spreadOppsList_flagged (cfg : Config) (c : Client) (now : ℕ) (f : FlaggedMap) :
    ∀ o ∈ spreadOppsList cfg c now f, ∃ m, m ∈ f.map Prod.snd ∧ o.markets = [m] := by
  intro o ho
  simp only [spreadOppsList] at ho
  split at ho
  · simp at ho
  · split at ho
    · simp at ho
    · refine spreadStep_foldl_mem cfg c now _
        (fun o => ∃ m, m ∈ f.map Prod.snd ∧ o.markets = [m]) ?_ _ []
        (fun o ho => absurd ho (List.not_mem_nil o)) o ho
      intro t s m hget
      obtain ⟨q, hq, hqv⟩ := dget_some_mem _ _ _ hget
      have hval : ∀ r ∈ ((f.map Prod.snd).foldl (tokenAcc c) ([], [])).2,
          r.2 ∈ f.map Prod.snd :=
        tokenAcc_values c (fun x => x ∈ f.map Prod.snd) _ _
          (fun r hr => absurd hr (List.not_mem_nil r)) (fun r hr => hr)
      refine ⟨m, ?_, rfl⟩
      rw [← hqv]
      exact hval q hq

/-! ## Key-uniqueness of the flagged map -/

theorem hasKey_iff_mem_keys {β : Type} (d : List (String × β)) (k : String) :
    hasKey d k = true ↔ k ∈ d.map Prod.fst := by
  rw [hasKey_iff]
  constructor
  · rintro ⟨p, hp, hpk⟩
    exact List.mem_map.2 ⟨p, hp, hpk⟩
  · intro h
    obtain ⟨p, hp, hpk⟩ := List.mem_map.1 h
    exact ⟨p, hp, hpk⟩

theorem dinsert_keys_nodup {β : Type} (d : List (String × β)) (k : String) (v : β)
    (h : (d.map Prod.fst).Nodup) : ((dinsert d k v).map Prod.fst).Nodup := by
  by_cases hk : hasKey d k
  · rw [keys_dinsert_of_hasKey v hk]
    exact h
  · unfold dinsert
    rw [if_neg hk]
    have hnk : k ∉ d.map Prod.fst := fun hm => hk ((hasKey_iff_mem_keys d k).2 hm)
    simp only [List.map_append, List.map_cons, List.map_nil]
    simp [List.nodup_append, h, hnk]

theorem insPairs_keys_nodup {β : Type} (ps : List (String × β)) :
    ∀ (d : List (String × β)), (d.map Prod.fst).Nodup →
      ((insPairs d ps).map Prod.fst).Nodup := by
  induction ps with
  | nil => intro d h; simpa [insPairs] using h
  | cons p tl ih =>
      intro d h
      simp only [insPairs, List.foldl_cons]
      exact ih _ (dinsert_keys_nodup d p.1 p.2 h)

/-! ## Claim theorems -/

/-- Claim C1: for every market in the input list with at least 2
outcomes, the Probability-Sum rule emits exactly one ProbSum opportunity
iff `|prob_sum - 1| > PROB_SUM_THRESHOLD`; when `prob_sum > 1` the
profit estimate is `(prob_sum - 1) / prob_sum`, otherwise
`1 - prob_sum`; markets with fewer than 2 outcomes never produce an
opportunity.  Stated as: the emitted list is exactly one opportunity per
qualifying market, in input order, with the stated type, market list and
profit estimate. -/
theorem C1_prob_sum_rule (cfg : Config) (now : ℕ) (f : FlaggedMap) (ms : List Market) :
    (detectProbSum cfg now f ms).1.map (fun o => (o.type, o.markets, o.profit_estimate))
      = (ms.filter (fun m =>
            decide (2 ≤ m.outcomes.length) &&
            decide (cfg.PROB_SUM_THRESHOLD < |m.prob_sum - 1|))).map
          (fun m => (OpportunityType.prob_sum, [m],
            if 1 < m.prob_sum then (m.prob_sum - 1) / m.prob_sum else 1 - m.prob_sum)) := by
  rw [detectProbSum_fst, List.map_map]
  rfl

/-- Claim C2: running `full_scan` twice on an unchanged market list
(same time bucket `now`, same client responses) yields the same
opportunity list and the same detector state. -/
theorem C2_full_scan_idempotent (cfg : Config) (c : Client) (now : ℕ) (f : FlaggedMap)
    (ms : List Market) :
    fullScan cfg c now (fullScan cfg c now f ms).2 ms = fullScan cfg c now f ms := by
  simp only [fullScan, detectSpread]
  simp only [detectProbSum_fst, detectProbSum_snd, insPairs_idem]

/-- Claim C3 counterexample: on an exact tie (`combo_a = combo_b`) the
emitted opportunity records the combo_b leg (buy No on m1, buy Yes on
m2), not the combo_a leg the claim states: `buy_yes_at` holds the m2
question, and the details are not the combo_a-leg details. -/
theorem C3_tie_break_counterexample :
    combo1 exM1 exM2 = combo2 exM1 exM2 ∧
    checkCrossMarket defaultConfig 0 exM1 exM2
      = some { id := "cross_c1_c2_0", type := .cross_market, markets := [exM1, exM2],
               profit_estimate := 1/5,
               details := .cross
                 "买 x wins on monday ok... 的 No + 买 x wins on tuesday ok... 的 Yes"
                 "x wins on tuesday ok" "x wins on monday ok" (combo2 exM1 exM2) 1 (1/5),
               detected_at := 0 } ∧
    (checkCrossMarket defaultConfig 0 exM1 exM2).map ArbitrageOpportunity.details
      ≠ some (Details.cross
          ("买 " ++ takeChars 30 exM1.question ++ "... 的 Yes + 买 " ++
            takeChars 30 exM2.question ++ "... 的 No")
          (takeChars 40 exM1.question) (takeChars 40 exM2.question) (combo1 exM1 exM2) 1
          (bestProfit exM1 exM2)) :=
  ⟨by with_unfolding_all rfl, by with_unfolding_all rfl,
   of_decide_eq_true (by with_unfolding_all rfl)⟩

/-- Claim C3 amended: when `combo_a` and `combo_b` are exactly equal and
an opportunity is emitted, the opportunity records the combo_b leg (buy
No on m1, buy Yes on m2) with `cost = combo_b` (numerically equal to
combo_a) and `payout = 1`. -/
theorem C3_tie_break_emits_combo2 (cfg : Config) (now : ℕ) (m1 m2 : Market)
    (o : ArbitrageOpportunity)
    (htie : combo1 m1 m2 = combo2 m1 m2)
    (h : checkCrossMarket cfg now m1 m2 = some o) :
    o.details = Details.cross
      ("买 " ++ takeChars 30 m1.question ++ "... 的 No + 买 " ++
        takeChars 30 m2.question ++ "... 的 Yes")
      (takeChars 40 m2.question) (takeChars 40 m1.question) (combo2 m1 m2) 1
      (bestProfit m1 m2)
    ∧ o.profit_estimate = bestProfit m1 m2 := by
  have hpe : profit1 m1 m2 = profit2 m1 m2 := by
    unfold profit1 profit2
    rw [htie]
  unfold checkCrossMarket at h
  by_cases h1 : m1.condition_id = m2.condition_id
  · rw [if_pos h1] at h
    cases h
  · rw [if_neg h1] at h
    by_cases h2 : coreEvent (lowerStr m1.question) ≠ coreEvent (lowerStr m2.question)
    · rw [if_pos h2] at h
      cases h
    · rw [if_neg h2] at h
      by_cases h3 : (! (hasOutcomeName m1 "yes" && hasOutcomeName m1 "no" &&
          hasOutcomeName m2 "yes" && hasOutcomeName m2 "no")) = true
      · rw [if_pos h3] at h
        cases h
      · rw [if_neg h3] at h
        unfold crossPayload at h
        by_cases hthr : cfg.SPREAD_THRESHOLD < bestProfit m1 m2
        · rw [if_pos hthr] at h
          by_cases hlt : profit2 m1 m2 < profit1 m1 m2
          · rw [hpe] at hlt
            exact absurd hlt (lt_irrefl _)
          · rw [if_neg hlt] at h
            injection h with h
            subst h
            exact ⟨rfl, rfl⟩
        · rw [if_neg hthr] at h
          cases h

/-- Claim C3 witness: the amended tie-break statement at the concrete
tie input. -/
theorem C3_tie_break_witness :
    oTie.details = Details.cross
      ("买 " ++ takeChars 30 exM1.question ++ "... 的 No + 买 " ++
        takeChars 30 exM2.question ++ "... 的 Yes")
      (takeChars 40 exM2.question) (takeChars 40 exM1.question) (combo2 exM1 exM2) 1
      (bestProfit exM1 exM2)
    ∧ oTie.profit_estimate = bestProfit exM1 exM2 :=
  C3_tie_break_emits_combo2 defaultConfig 0 exM1 exM2 oTie
    (by with_unfolding_all rfl) (by with_unfolding_all rfl)

/-- Claim C4 counterexample: an input price of 1.5 is propagated
unchanged into the constructed `Outcome` both by the constructor and by
the `from_api_response` outcome loop, and 1.5 lies outside [0,1]. -/
theorem C4_price_range_counterexample :
    (mkOutcome "Yes" (PriceInput.num (3/2)) none).price = 3/2 ∧
    (fromApiOutcomes ["Yes"] [3/2]).map Outcome.price = [3/2] ∧
    ¬ ((3:ℚ)/2 ≤ 1) :=
  ⟨rfl, rfl, of_decide_eq_true (by with_unfolding_all rfl)⟩

/-- Claim C4 amended: parsing performs no range validation.  The
constructed price always equals the given input price (after the
string-to-float conversion), and the `from_api_response` loop propagates
`outcomePrices[i]` unchanged, substituting 0.5 only when the price list
is shorter than the name list. -/
theorem C4_price_passthrough (nm : String) (p : PriceInput) (vol : Option ℚ)
    (names : List String) (prices : List ℚ) :
    (mkOutcome nm p vol).price = p.value ∧
    (fromApiOutcomes names prices).map Outcome.price
      = (List.range names.length).map (fun i => prices.getD i (1/2)) := by
  refine ⟨rfl, ?_⟩
  unfold fromApiOutcomes
  rw [List.map_map, show List.range names.length = names.enum.map Prod.fst from
    (List.enum_map_fst names).symm, List.map_map]
  rfl

/-- Claim C5 counterexample: a market with three outcomes (so not a
binary market with outcome names exactly Yes/No) still produces a
CrossMarket opportunity, because the code only checks set inclusion of
yes and no. -/
theorem C5_nonbinary_counterexample :
    exN1.outcomes.length = 3 ∧
    "maybe" ∈ exN1.outcomes.map (fun o => lowerStr o.name) ∧
    (checkCrossMarket defaultConfig 0 exN1 exN2).isSome = true :=
  ⟨rfl, by decide, by with_unfolding_all rfl⟩

/-- Claim C5 amended: the pair test skips a pair only when one of the
markets lacks a "yes" outcome or a "no" outcome (case-insensitive set
inclusion, not equality): whenever that inclusion fails, no opportunity
is emitted. -/
theorem C5_yes_no_subset_guard (cfg : Config) (now : ℕ) (m1 m2 : Market)
    (h : ¬ (hasOutcomeName m1 "yes" = true ∧ hasOutcomeName m1 "no" = true ∧
            hasOutcomeName m2 "yes" = true ∧ hasOutcomeName m2 "no" = true)) :
    checkCrossMarket cfg now m1 m2 = none := by
  unfold checkCrossMarket
  by_cases h1 : m1.condition_id = m2.condition_id
  · rw [if_pos h1]
  · rw [if_neg h1]
    by_cases h2 : coreEvent (lowerStr m1.question) ≠ coreEvent (lowerStr m2.question)
    · rw [if_pos h2]
    · rw [if_neg h2]
      have hx : (hasOutcomeName m1 "yes" && hasOutcomeName m1 "no" &&
          hasOutcomeName m2 "yes" && hasOutcomeName m2 "no") = false := by
        cases hA : hasOutcomeName m1 "yes" <;> cases hB : hasOutcomeName m1 "no" <;>
          cases hC : hasOutcomeName m2 "yes" <;> cases hD : hasOutcomeName m2 "no" <;>
          simp_all
      rw [if_pos (show (! (hasOutcomeName m1 "yes" && hasOutcomeName m1 "no" &&
          hasOutcomeName m2 "yes" && hasOutcomeName m2 "no")) = true by rw [hx]; rfl)]

/-- Claim C5 witness: the amended guard at a market with a single Yes
outcome. -/
theorem C5_yes_no_subset_witness :
    checkCrossMarket defaultConfig 0 mW1 mW2 = none :=
  C5_yes_no_subset_guard defaultConfig 0 mW1 mW2 (by decide)

/-- Claim C6: two market records sharing one `condition_id` are never
paired: the pair test returns no opportunity. -/
theorem C6_same_condition_skip (cfg : Config) (now : ℕ) (m1 m2 : Market)
    (h : m1.condition_id = m2.condition_id) :
    checkCrossMarket cfg now m1 m2 = none := by
  unfold checkCrossMarket
  rw [if_pos h]

/-- Claim C6 witness: the same-condition guard at two concrete listings
of one condition. -/
theorem C6_same_condition_witness :
    mS1.condition_id = mS2.condition_id ∧
    checkCrossMarket defaultConfig 0 mS1 mS2 = none :=
  ⟨rfl, C6_same_condition_skip defaultConfig 0 mS1 mS2 rfl⟩

/-- Claim C7: `full_scan` concatenates the three rule outputs in the
fixed order ProbSum, CrossMarket, Spread and deduplicates by
`(type, sorted market ids)`: the result is an order-preserving sublist,
its keys are pairwise distinct, every input key survives, and each
survivor is the first occurrence of its key. -/
theorem C7_aggregator_dedup (cfg : Config) (c : Client) (now : ℕ) (f : FlaggedMap)
    (ms : List Market) (l : List ArbitrageOpportunity) :
    (fullScan cfg c now f ms).1
      = dedupOpps ((detectProbSum cfg now f ms).1 ++ detectCrossMarket cfg now ms
          ++ (detectSpread cfg c now (detectProbSum cfg now f ms).2).1) ∧
    List.Sublist (dedupOpps l) l ∧
    ((dedupOpps l).map oppKey).Nodup ∧
    (∀ o ∈ l, ∃ u ∈ dedupOpps l, oppKey u = oppKey o) ∧
    (∀ o ∈ dedupOpps l, l.find? (fun x => decide (oppKey x = oppKey o)) = some o) := by
  refine ⟨rfl, dedupGo_sublist l [], dedupGo_keys_nodup l [], ?_, ?_⟩
  · intro o ho
    exact dedupGo_complete l [] o ho (List.not_mem_nil _)
  · intro o ho
    exact dedupGo_first l [] o ho

set_option maxRecDepth 2000 in
/-- Claim C7 witness: of two ProbSum opportunities on the identical
market id, only the first survives, and the survivor is the first
occurrence of its key. -/
theorem C7_aggregator_witness :
    dedupOpps [o1ex, o2ex] = [o1ex] ∧
    [o1ex, o2ex].find? (fun x => decide (oppKey x = oppKey o1ex)) = some o1ex :=
  ⟨by with_unfolding_all rfl,
   (C7_aggregator_dedup defaultConfig trivClient 0 [] [] [o1ex, o2ex]).2.2.2.2 o1ex
     (by rw [show dedupOpps [o1ex, o2ex] = [o1ex] from by with_unfolding_all rfl]
         exact List.mem_cons_self _ _)⟩

/-- Claim C8: every market triggering the ProbSum rule is inserted into
the flagged-markets map keyed by its market id; the insert is idempotent
(with distinct keys before, the map still has distinct keys and exactly
one entry for a triggering id); the Spread rule leaves the map it was
given unchanged. -/
theorem C8_flagged_insert_and_spread_frame (cfg : Config) (c : Client) (now : ℕ)
    (f : FlaggedMap) (ms : List Market) :
    ((f.map Prod.fst).Nodup →
      ((detectProbSum cfg now f ms).2.map Prod.fst).Nodup ∧
      ∀ m ∈ ms, 2 ≤ m.outcomes.length → cfg.PROB_SUM_THRESHOLD < |m.prob_sum - 1| →
        ((detectProbSum cfg now f ms).2.map Prod.fst).count m.id = 1) ∧
    (detectSpread cfg c now f).2 = f := by
  constructor
  · intro hnd
    rw [detectProbSum_snd]
    constructor
    · exact insPairs_keys_nodup _ f hnd
    · intro m hm h2 hth
      have hq : probQual cfg m = true := by
        unfold probQual
        simp [h2, hth]
      have hmem : (m.id, m) ∈ (ms.filter (probQual cfg)).map (fun m => (m.id, m)) :=
        List.mem_map.2 ⟨m, List.mem_filter.2 ⟨hm, hq⟩, rfl⟩
      have hkey := hasKey_insPairs_of_mem _ f (m.id, m) hmem
      exact List.count_eq_one_of_mem (insPairs_keys_nodup _ f hnd)
        ((hasKey_iff_mem_keys _ _).1 hkey)
  · rfl

set_option maxRecDepth 2000 in
/-- Claim C8 witness: the flagged map holds exactly one entry for the
triggering market, and a Spread run leaves an empty map empty. -/
theorem C8_flagged_witness :
    ((detectProbSum defaultConfig 0 [] [mQ]).2.map Prod.fst).count mQ.id = 1 ∧
    (detectSpread defaultConfig trivClient 0 []).2 = [] :=
  ⟨((C8_flagged_insert_and_spread_frame defaultConfig trivClient 0 [] [mQ]).1
      (by simp)).2 mQ (List.mem_cons_self _ _) (by decide)
      (of_decide_eq_true (by with_unfolding_all rfl)),
   (C8_flagged_insert_and_spread_frame defaultConfig trivClient 0 [] []).2⟩

/-- Claim C9: the Spread rule operates only on the flagged-markets map:
an empty map yields no opportunities, and every emitted opportunity
references a flagged market. -/
theorem C9_spread_flagged_only (cfg : Config) (c : Client) (now : ℕ) (f : FlaggedMap) :
    (f = [] → (detectSpread cfg c now f).1 = []) ∧
    (∀ o ∈ (detectSpread cfg c now f).1, ∃ m, m ∈ f.map Prod.snd ∧ o.markets = [m]) := by
  constructor
  · intro h
    subst h
    rfl
  · exact spreadOppsList_flagged cfg c now f

set_option maxRecDepth 2000 in
/-- Claim C9 witness: an empty flagged map emits nothing, and a
concretely emitted Spread opportunity references its flagged market. -/
theorem C9_spread_witness :
    (detectSpread defaultConfig trivClient 0 []).1 = [] ∧
    (∃ m, m ∈ [(mQ.id, mQ)].map Prod.snd ∧ (spreadOpp 0 "tok1" (1/10) (1/2) mQ).markets = [m]) :=
  ⟨(C9_spread_flagged_only defaultConfig trivClient 0 []).1 rfl,
   (C9_spread_flagged_only defaultConfig exClient 0 [(mQ.id, mQ)]).2
     (spreadOpp 0 "tok1" (1/10) (1/2) mQ)
     (by rw [show (detectSpread defaultConfig exClient 0 [(mQ.id, mQ)]).1
           = [spreadOpp 0 "tok1" (1/10) (1/2) mQ] from by with_unfolding_all rfl]
         exact List.mem_cons_self _ _)⟩

/-- Claim C10: the pair test imposes a textual-equality precondition:
whenever the lowercased questions, after stripping the trailing clause
introduced by a whitespace-delimited on/by/before/after/during, differ
as strings, no opportunity is emitted, regardless of prices. -/
theorem C10_core_event_guard (cfg : Config) (now : ℕ) (m1 m2 : Market)
    (h : coreEvent (lowerStr m1.question) ≠ coreEvent (lowerStr m2.question)) :
    checkCrossMarket cfg now m1 m2 = none := by
  unfold checkCrossMarket
  by_cases h1 : m1.condition_id = m2.condition_id
  · rw [if_pos h1]
  · rw [if_neg h1, if_pos h]

/-- Claim C10 witness: the guard at two concrete markets whose core
events differ. -/
theorem C10_core_event_witness :
    coreEvent (lowerStr mC1.question) ≠ coreEvent (lowerStr mC2.question) ∧
    checkCrossMarket defaultConfig 0 mC1 mC2 = none :=
  ⟨by decide, C10_core_event_guard defaultConfig 0 mC1 mC2 (by decide)⟩

end Arbiter
